import Mathlib

/-!
Verification of the LiveGames provably-fair number engine (`pfn`).

The repository ships two implementations, both exported from `index.js`:
`ProvablyFairNumbers` (V1, `src/pfn.js`) and `ProvablyFairNumbersV2`
(V2, `src/pfn-v2.js`, the default export).  Both are shallowly embedded
below.

Modelling conventions:
- The HMAC-SHA256 primitive is treated as an injected oracle
  `Hmac : String → String → Digest` (key, message ↦ 32-byte digest), as the
  design notes of the documentation suggest; a `Digest` is a function from
  byte position to byte value.
- `crypto.randomBytes`-backed lazy client-seed generation is modelled by an
  explicit parameter `gen : String` standing for the freshly generated
  64-hex-character string of `generateRandomHex(64)`.
- JavaScript numbers are modelled exactly: integers as `Int`, fractional
  values as `ℚ`.  On every concrete evaluation performed in this file the
  JavaScript double-precision computation is exact, so the rational model
  agrees with the source bit-for-bit there; `Math.floor(2 ** 32 / range)`
  equals integer floor division because the quotient of `2^32` by an
  integer can never round across an integer boundary in double precision.
- JavaScript `%` is truncated remainder, i.e. `Int.tmod`.
- JavaScript arrays (whose reads past the end yield `undefined` and whose
  writes at index `length` extend the array) are modelled as
  `List (Option α)` with `undefined = none`.
- The `do … while` rejection loops and the `while` collection loops are
  modelled with an explicit fuel argument; the constructor `spin` of
  `JsResult` means the loop is still running after `fuel` iterations.
-/

namespace PFN

/-- A 32-byte HMAC-SHA256 digest, as a function from byte position to byte
value (a Node `Buffer` of length 32). -/
def Digest : Type := Fin 32 → Fin 256

/-- The HMAC oracle: `Hmac key message` models
`crypto.createHmac('sha256', key).update(message).digest()`. -/
def Hmac : Type := String → String → Digest

/-- The mutable fields of a `ProvablyFairNumbers(V2)` object.
`clientSeed = none` models the JavaScript `undefined` field.
`index = none` is nonce mode, `index = some i` is index mode (V2 only;
V1 objects always have `index = none`). -/
structure PFNState where
  clientSeed : Option String
  serverSeed : String
  nonce : Int
  index : Option Int
  deriving Repr, DecidableEq

/-- JavaScript truthiness test `!this.clientSeed`: the field is falsy when
it is `undefined` or the empty string. -/
def clientSeedFalsy (st : PFNState) : Bool :=
  match st.clientSeed with
  | none => true
  | some s => s = ""

/-- The V2 constructor, for a plain-string (or absent) client seed.
`if (clientSeed || clientSeed === 0) this.setClientSeed(String(clientSeed))`:
an empty string is falsy, so no client seed is stored for it.
(The array-join form of the argument and server-seed auto-generation are
orthogonal to the claims and are not modelled: `serverSeed` is the final
stored server seed.) -/
def mkV2 (clientSeed : Option String) (serverSeed : String) (nonce : Int)
    (index : Option Int) : PFNState :=
  { clientSeed :=
      match clientSeed with
      | some s => if s = "" then none else some s
      | none => none
    serverSeed := serverSeed
    nonce := nonce
    index := index }

/-- `nextIndex()` (V2): `(this.index === null) ? (++this.nonce) : (++this.index)`.
Returns the new counter value together with the updated state. -/
def nextIndex (st : PFNState) : Int × PFNState :=
  match st.index with
  | none => (st.nonce + 1, { st with nonce := st.nonce + 1 })
  | some i => (i + 1, { st with index := some (i + 1) })

/-- The state after one `nextIndex()` call. -/
def advance (st : PFNState) : PFNState := (nextIndex st).2

/-- The active counter of the state: the index in index mode, else the
nonce. -/
def counter (st : PFNState) : Int :=
  match st.index with
  | none => st.nonce
  | some i => i

/-- The HMAC message `this.clientSeed + '-' + this.nonce + indexPart` built
by `_currentHmacBuf` (V2). -/
def hmacMessage (st : PFNState) : String :=
  let indexPart :=
    match st.index with
    | some i => "-" ++ toString i
    | none => ""
  (st.clientSeed.getD "") ++ "-" ++ toString st.nonce ++ indexPart

/-- `_currentHmacBuf()` (V2): lazily installs a generated client seed when
the field is falsy, then returns the HMAC digest of the message, together
with the (possibly updated) state.  `gen` models the fresh
`generateRandomHex(64)` output. -/
def currentHmacBuf (H : Hmac) (gen : String) (st : PFNState) :
    Digest × PFNState :=
  let st1 := if clientSeedFalsy st then { st with clientSeed := some gen } else st
  (H st1.serverSeed (hmacMessage st1), st1)

/-- `buf.readUInt32BE(0)`: big-endian 32-bit read of bytes 0..3. -/
def hi32 (d : Digest) : Nat :=
  (d 0 : Nat) * 2 ^ 24 + (d 1 : Nat) * 2 ^ 16 + (d 2 : Nat) * 2 ^ 8 + (d 3 : Nat)

/-- `buf.readUInt32BE(4)`: big-endian 32-bit read of bytes 4..7. -/
def lo32 (d : Digest) : Nat :=
  (d 4 : Nat) * 2 ^ 24 + (d 5 : Nat) * 2 ^ 16 + (d 6 : Nat) * 2 ^ 8 + (d 7 : Nat)

/-- The 52-bit mantissa `(hi32 * 0x100000) + (lo32 >>> 12)` of V2
`random()`. -/
def mantissa52 (d : Digest) : Nat := hi32 d * 2 ^ 20 + lo32 d / 2 ^ 12

/-- `random()` (V2): the 52-bit mantissa scaled by `2^-52` (the literal
`2.220446049250313e-16` is exactly `2^-52`, and the scaling of a value
below `2^53` by a power of two is exact in double precision), with the
theoretical `r >= 1` guard clamping to `1 - Number.EPSILON`.  Returns the
value together with the state updated by the lazy client-seed install. -/
def randomV2 (H : Hmac) (gen : String) (st : PFNState) : ℚ × PFNState :=
  let p := currentHmacBuf H gen st
  let r : ℚ := (mantissa52 p.1 : ℚ) / 2 ^ 52
  (if 1 ≤ r then 1 - 1 / 2 ^ 52 else r, p.2)

/-- Result of a JavaScript method that can throw and can loop: `ok v st` is
a normal return with post-state `st`, `exn msg st` is a thrown `Error` with
the object state at the throw, and `spin` means the loop inside the method
is still running after the given fuel. -/
inductive JsResult (α : Type) where
  | ok : α → PFNState → JsResult α
  | exn : String → PFNState → JsResult α
  | spin : JsResult α
  deriving Repr, DecidableEq

/-- The post-state of a finished (returned or thrown) call, `none` while
still spinning. -/
def JsResult.stateOut : JsResult α → Option PFNState
  | .ok _ st => some st
  | .exn _ st => some st
  | .spin => none

/-- The `do { … } while (i >= maxRange)` rejection loop of V2
`randomInt`.  Each iteration computes `i = Math.floor(this.random() * 2 ** 32)`
at the current state; an accepted draw returns `(i % range) + min` without
advancing; a rejected draw advances the counter (`if (c) this.nextIndex()`)
and redraws. -/
def randomIntLoopV2 (H : Hmac) (gen : String) (mn range maxRange : Int) :
    PFNState → Nat → JsResult Int
  | _, 0 => .spin
  | st, fuel + 1 =>
    let p := randomV2 H gen st
    let i : Int := ⌊p.1 * 2 ^ 32⌋
    if i ≥ maxRange then
      randomIntLoopV2 H gen mn range maxRange (advance p.2) fuel
    else
      .ok (Int.tmod i range + mn) p.2

/-- `randomInt(min, max)` (V2): throws for `max < min`, otherwise runs the
rejection loop with `range = max - min + 1` and
`maxRange = Math.floor(2 ** 32 / range) * range`. -/
def randomIntV2 (H : Hmac) (gen : String) (mn mx : Int) (st : PFNState)
    (fuel : Nat) : JsResult Int :=
  if mx < mn then .exn "randomInt: max < min" st
  else
    let range := mx - mn + 1
    let maxRange := ((2 : Int) ^ 32).fdiv range * range
    randomIntLoopV2 H gen mn range maxRange st fuel

/-- `Number(x.toFixed(p))`: round `x` to `p` decimal digits, nearest, ties
toward the larger value. -/
def toFixedVal (x : ℚ) (p : Nat) : ℚ := (⌊x * 10 ^ p + 1 / 2⌋ : ℚ) / 10 ^ p

/-- `randomFloat(min, max, precision)` (V2): throws for `max < min`, else
`parseFloat((min + this.random() * (max - min)).toFixed(precision))`. -/
def randomFloatV2 (H : Hmac) (gen : String) (mn mx : ℚ) (p : Nat)
    (st : PFNState) : JsResult ℚ :=
  if mx < mn then .exn "randomFloat: max < min" st
  else
    let q := randomV2 H gen st
    .ok (toFixedVal (mn + q.1 * (mx - mn)) p) q.2

/-- `next()` (V2): `this.nextIndex(); return this.random()`. -/
def nextV2 (H : Hmac) (gen : String) (st : PFNState) : ℚ × PFNState :=
  randomV2 H gen (advance st)

/-- `nextFloat(min, max, precision)` (V2). -/
def nextFloatV2 (H : Hmac) (gen : String) (mn mx : ℚ) (p : Nat)
    (st : PFNState) : JsResult ℚ :=
  randomFloatV2 H gen mn mx p (advance st)

/-- `nextInt(min, max)` (V2): advance once, then run `randomInt`. -/
def nextIntV2 (H : Hmac) (gen : String) (mn mx : Int) (st : PFNState)
    (fuel : Nat) : JsResult Int :=
  randomIntV2 H gen mn mx (advance st) fuel

/-- The 256-bit big-endian value of an entire digest:
`result = (result << 8n) | BigInt(buf[i])` folded over the 32 bytes. -/
def digestVal (d : Digest) : Nat :=
  (List.finRange 32).foldl (fun acc i => acc * 256 + (d i : Nat)) 0

/-- `randomLong()` (V2): the digest as a 256-bit `BigInt` (does not advance
state). -/
def randomLongV2 (H : Hmac) (gen : String) (st : PFNState) : Nat × PFNState :=
  let p := currentHmacBuf H gen st
  (digestVal p.1, p.2)

/-- The `while (list.length < size)` collection loop of V2
`randomIntRange(·, ·, ·, unique = true)`.  The JavaScript `Set picked`
always holds exactly the members of `list`, so the membership test is
modelled on the list itself.  `ifuel` bounds the rejection loop of each
`nextInt` call, `fuel` the number of collection iterations. -/
def rirUniqueLoopV2 (H : Hmac) (gen : String) (mn mx size : Int)
    (ifuel : Nat) : List Int → PFNState → Nat → JsResult (List Int)
  | acc, st, 0 => if (acc.length : Int) < size then .spin else .ok acc st
  | acc, st, fuel + 1 =>
    if (acc.length : Int) < size then
      match nextIntV2 H gen mn mx st ifuel with
      | .ok n st1 =>
        rirUniqueLoopV2 H gen mn mx size ifuel
          (if acc.contains n then acc else acc ++ [n]) st1 fuel
      | .exn e s => .exn e s
      | .spin => .spin
    else .ok acc st

/-- The `for (let i = 0; i < size; i++) list.push(this.nextInt(min, max))`
loop of V2 `randomIntRange` in the non-unique branch. -/
def rirListLoopV2 (H : Hmac) (gen : String) (mn mx : Int) (ifuel : Nat) :
    Nat → List Int → PFNState → JsResult (List Int)
  | 0, acc, st => .ok acc st
  | k + 1, acc, st =>
    match nextIntV2 H gen mn mx st ifuel with
    | .ok n st1 => rirListLoopV2 H gen mn mx ifuel k (acc ++ [n]) st1
    | .exn e s => .exn e s
    | .spin => .spin

/-- `randomIntRange(min, max, size, unique)` (V2): throws for `max < min`;
clamps `size < 0` to 0; in the unique branch clamps `size` to the domain
size `max - min + 1` and collects distinct draws; else collects `size`
draws.  Returns the `l` list of the result object. -/
def randomIntRangeV2 (H : Hmac) (gen : String) (mn mx size : Int)
    (unique : Bool) (st : PFNState) (ifuel fuel : Nat) :
    JsResult (List Int) :=
  if mx < mn then .exn "randomIntRange: max < min" st
  else
    let size1 := if size < 0 then 0 else size
    if unique then
      let domain := mx - mn + 1
      let size2 := if size1 > domain then domain else size1
      rirUniqueLoopV2 H gen mn mx size2 ifuel [] st fuel
    else
      rirListLoopV2 H gen mn mx ifuel size1.toNat [] st

/-- JavaScript array read `arr[i]`: the element when in range, `undefined`
(`none`) past the end. -/
def jsAget (l : List (Option α)) (i : Nat) : Option α := (l.get? i).getD none

/-- JavaScript array write `arr[i] = v` for `i ≤ arr.length`: in-place set
when in range, append when `i = arr.length` (the only out-of-range index
the embedded code ever writes). -/
def jsAset (l : List (Option α)) (i : Nat) (v : Option α) :
    List (Option α) :=
  if i < l.length then l.set i v else l ++ [v]

/-- The `while (m) { const i = this.nextInt(0, --m); … }` loop of V2
`shuffle`: entered with loop variable value `m + 1`, it draws
`i ∈ [0, m]`, then swaps `arr[m]` and `arr[i]`. -/
def shuffleLoopV2 (H : Hmac) (gen : String) (ifuel : Nat) :
    Nat → List (Option α) → PFNState → JsResult (List (Option α))
  | 0, arr, st => .ok arr st
  | m + 1, arr, st =>
    match nextIntV2 H gen 0 (m : Int) st ifuel with
    | .ok i st1 =>
      let iN := i.toNat
      let t := jsAget arr m
      shuffleLoopV2 H gen ifuel m (jsAset (jsAset arr m (jsAget arr iN)) iN t) st1
    | .exn e s => .exn e s
    | .spin => .spin

/-- `shuffle(arr)` (V2): Fisher-Yates over the array. -/
def shuffleV2 (H : Hmac) (gen : String) (arr : List (Option α))
    (st : PFNState) (ifuel : Nat) : JsResult (List (Option α)) :=
  shuffleLoopV2 H gen ifuel arr.length arr st

/-- `crash(houseEdge, max)` (V2):
`eps = houseEdge >= 1 ? houseEdge / 100 : houseEdge`; `r = this.random()`
guarded below 1 by `1 - 1e-12`; `raw = (1 - eps) / (1 - r)`;
`Math.min(Math.max(1, Math.floor(raw * 100) / 100), max)`. -/
def crashV2 (H : Hmac) (gen : String) (houseEdge mx : ℚ) (st : PFNState) :
    ℚ × PFNState :=
  let eps := if houseEdge ≥ 1 then houseEdge / 100 else houseEdge
  let q := randomV2 H gen st
  let r := if q.1 ≥ 1 then 1 - 1 / 1000000000000 else q.1
  let raw := (1 - eps) / (1 - r)
  (min (max 1 ((⌊raw * 100⌋ : ℚ) / 100)) mx, q.2)

/-- The subtraction walk of V2 `weightedRandom`: subtract each weight from
`t`, returning the first key that makes `t` negative; `last` is the key of
the most recently visited entry (the code falls back to the final entry). -/
def pickWalk (l : List (String × ℚ)) (t : ℚ) (last : String) : String :=
  match l with
  | [] => last
  | (k, w) :: rest => if t - w < 0 then k else pickWalk rest (t - w) k

/-- `weightedRandom(spec)` (V2) over an insertion-ordered list of
(key, weight) entries: keep finite positive weights (`ℚ` weights are
always finite), return `undefined` when none remain, else walk
`t = this.random() * total` through the entries. -/
def weightedRandomV2 (H : Hmac) (gen : String) (spec : List (String × ℚ))
    (st : PFNState) : Option String × PFNState :=
  let valid := spec.filter (fun e => 0 < e.2)
  match valid with
  | [] => (none, st)
  | _ :: _ =>
    let total := (valid.map Prod.snd).sum
    let q := randomV2 H gen st
    (some (pickWalk valid (q.1 * total) ""), q.2)

/-- `bytesToFloat(bytes)`: `Σ bytes[i] / 256^(i+1)`. -/
def bytesToFloat (bs : List Nat) : ℚ :=
  (List.range bs.length).foldl
    (fun acc i => acc + (bs.getD i 0 : ℚ) / 256 ^ (i + 1)) 0

/-- `highMultiplier(houseEdge, maxMultiplier, precision)` (V2): uses the
first 4 digest bytes (does not advance state). -/
def highMultiplierV2 (H : Hmac) (gen : String) (houseEdge mx : ℚ)
    (prec : Nat) (st : PFNState) : ℚ × PFNState :=
  let p := currentHmacBuf H gen st
  let value := ⌊bytesToFloat [(p.1 0 : Nat), (p.1 1 : Nat), (p.1 2 : Nat), (p.1 3 : Nat)] * 16777216⌋
  let eps := if houseEdge ≥ 1 then houseEdge / 100 else houseEdge
  (toFixedVal (min (max 1 (16777216 / ((value : ℚ) + 1) * (1 - eps))) mx) prec, p.2)

/-- The options object of V2 `pump`.  `difficulty` is a string or a number
(`Sum String Int`); absent fields are `none`. -/
structure PumpOpts where
  nonce : Option Int := none
  index : Option Int := none
  samples : Option (List (String × Int)) := none
  size : Option Int := none
  difficulty : Option (Sum String Int) := none
  edge : Option ℚ := none

/-- The difficulty key `opts.difficulty || 'medium'` used for the map
lookup (an empty string is falsy). -/
def pumpDifficultyKey : Option (Sum String Int) → String
  | some (.inl s) => if s = "" then "medium" else s
  | _ => "medium"

/-- `typeof opts.difficulty === 'number' ? opts.difficulty :
(difficultyMap[opts.difficulty || 'medium'] || 3)`: a missing or zero map
entry falls back to 3 (`|| 3` on a falsy value). -/
def pumpBurstPoints (dmap : List (String × Int)) :
    Option (Sum String Int) → Int
  | some (.inr n) => n
  | d =>
    let v := (dmap.lookup (pumpDifficultyKey d)).getD 0
    if v = 0 then 3 else v

/-- The partial Fisher-Yates selection loop of V2 `pump`: `burstPoints`
iterations of `j = this.nextInt(0, remaining - 1)`, tracking the smallest
selected position and replacing slot `j` with slot `remaining - 1`.
All accessed indices are within `positions`, so reads use `getD 0`.
Returns the smallest selected position (`firstBurst`). -/
def pumpSelectLoop (H : Hmac) (gen : String) (ifuel : Nat) :
    Nat → List Int → Nat → Int → PFNState → JsResult Int
  | 0, _, _, firstBurst, st => .ok firstBurst st
  | k + 1, positions, remaining, firstBurst, st =>
    match nextIntV2 H gen 0 ((remaining : Int) - 1) st ifuel with
    | .ok j st1 =>
      let jN := j.toNat
      let selected := positions.getD jN 0
      let fb := if selected < firstBurst then selected else firstBurst
      let rem := remaining - 1
      pumpSelectLoop H gen ifuel k (positions.set jN (positions.getD rem 0))
        rem fb st1
    | .exn e s => .exn e s
    | .spin => .spin

/-- `pump(opts)` (V2), up to the burst-position selection: first overwrites
`this.nonce` / `this.index` from the options when present, resolves size
and difficulty, validates them, then selects `burstPoints` positions out of
`[0, size)` by partial Fisher-Yates.  Returns
`(size, burstPoints, popPoint)`; the probability closures of the result
object are pure functions of these three values and never touch the seed
state, so they are omitted here. -/
def pumpV2 (H : Hmac) (gen : String) (opts : PumpOpts) (st : PFNState)
    (ifuel : Nat) : JsResult (Int × Int × Int) :=
  let st1 := match opts.nonce with
    | some n => { st with nonce := n }
    | none => st
  let st2 := match opts.index with
    | some i => { st1 with index := some i }
    | none => st1
  let dmap := opts.samples.getD
    [("easy", 1), ("medium", 3), ("hard", 5), ("expert", 10)]
  let size := opts.size.getD 25
  let burstPoints := pumpBurstPoints dmap opts.difficulty
  if ¬ (2 ≤ size) then .exn "pump: invalid size" st2
  else if ¬ (1 ≤ burstPoints ∧ burstPoints ≤ size) then
    .exn "pump: invalid difficulty" st2
  else
    match pumpSelectLoop H gen ifuel burstPoints.toNat
        ((List.range size.toNat).map Int.ofNat) size.toNat size st2 with
    | .ok fb st3 => .ok (size, burstPoints, fb + 1) st3
    | .exn e s => .exn e s
    | .spin => .spin

/-! ### V1 (`src/pfn.js`)

V1 objects have no index mode (always nonce) and advance with a bare
`this.nonce++`.  `randomLong` is `parseInt(hmacHexDigest, 16)`; the
conversion of the 256-bit value to a JavaScript double is modelled exactly
as a rational (every concrete V1 evaluation below involves a value the
double representation holds exactly). -/

/-- V1 state advancement `this.nonce++` (no index mode). -/
def advanceV1 (st : PFNState) : PFNState := { st with nonce := st.nonce + 1 }

/-- The V1 HMAC message `this.clientSeed + '-' + this.nonce`. -/
def hmacMessageV1 (st : PFNState) : String :=
  (st.clientSeed.getD "") ++ "-" ++ toString st.nonce

/-- The digest and state of a V1 digest-consuming call: lazily installs a
generated client seed when the field is falsy, then HMACs the V1
message. -/
def currentHmacBufV1 (H : Hmac) (gen : String) (st : PFNState) :
    Digest × PFNState :=
  let st1 := if clientSeedFalsy st then { st with clientSeed := some gen } else st
  (H st1.serverSeed (hmacMessageV1 st1), st1)

/-- `randomLong()` (V1): the hex HMAC digest interpreted as a number. -/
def randomLongV1 (H : Hmac) (gen : String) (st : PFNState) : ℚ × PFNState :=
  let p := currentHmacBufV1 H gen st
  ((digestVal p.1 : ℚ), p.2)

/-- `random()` (V1): `this.randomLong() / Math.pow(2, 256)`. -/
def randomV1 (H : Hmac) (gen : String) (st : PFNState) : ℚ × PFNState :=
  let p := randomLongV1 H gen st
  (p.1 / 2 ^ 256, p.2)

/-- The rejection loop of V1 `randomInt` (same shape as V2, but advancing
with `this.nonce++` and drawing from V1 `random`). -/
def randomIntLoopV1 (H : Hmac) (gen : String) (mn range maxRange : Int) :
    PFNState → Nat → JsResult Int
  | _, 0 => .spin
  | st, fuel + 1 =>
    let p := randomV1 H gen st
    let i : Int := ⌊p.1 * 2 ^ 32⌋
    if i ≥ maxRange then
      randomIntLoopV1 H gen mn range maxRange (advanceV1 p.2) fuel
    else
      .ok (Int.tmod i range + mn) p.2

/-- `randomInt(min, max)` (V1): no `max < min` check; `range` and
`maxRange` may be non-positive. -/
def randomIntV1 (H : Hmac) (gen : String) (mn mx : Int) (st : PFNState)
    (fuel : Nat) : JsResult Int :=
  let range := mx - mn + 1
  let maxRange := ((2 : Int) ^ 32).fdiv range * range
  randomIntLoopV1 H gen mn range maxRange st fuel

/-- `nextInt(min, max)` (V1): `this.nonce++` then `randomInt`. -/
def nextIntV1 (H : Hmac) (gen : String) (mn mx : Int) (st : PFNState)
    (fuel : Nat) : JsResult Int :=
  randomIntV1 H gen mn mx (advanceV1 st) fuel

/-- The `while (r[unique ? 'u' : 'l'].length < size)` loop of V1
`randomIntRange`: every draw is pushed to `l`; a draw not yet in `u` is
additionally pushed to `u` when `unique`. -/
def rirLoopV1 (H : Hmac) (gen : String) (mn mx size : Int) (unique : Bool)
    (ifuel : Nat) : List Int → List Int → PFNState → Nat →
    JsResult (List Int × List Int)
  | l, u, st, 0 =>
    if ((if unique then u else l).length : Int) < size then .spin
    else .ok (l, u) st
  | l, u, st, fuel + 1 =>
    if ((if unique then u else l).length : Int) < size then
      match nextIntV1 H gen mn mx st ifuel with
      | .ok n st1 =>
        rirLoopV1 H gen mn mx size unique ifuel (l ++ [n])
          (if unique ∧ ¬ u.contains n then u ++ [n] else u) st1 fuel
      | .exn e s => .exn e s
      | .spin => .spin
    else .ok (l, u) st

/-- `randomIntRange(min, max, size, unique)` (V1): no `max < min` check and
no negative-size clamp; `if (unique && size > max) size = max` clamps to
`max` (not to the domain size).  Returns the `(l, u)` lists (`u` is only
populated when `unique`). -/
def randomIntRangeV1 (H : Hmac) (gen : String) (mn mx size : Int)
    (unique : Bool) (st : PFNState) (ifuel fuel : Nat) :
    JsResult (List Int × List Int) :=
  let size1 := if unique ∧ size > mx then mx else size
  rirLoopV1 H gen mn mx size1 unique ifuel [] [] st fuel

/-- The `while (m) { i = this.nextInt(0, m--); … }` loop of V1 `shuffle`:
entered with loop variable value `m + 1`, it draws `i ∈ [0, m + 1]` (one
more than the remaining prefix length), then swaps `arr[m]` and `arr[i]`;
`i = m + 1` reads past the end and can write past the end. -/
def shuffleLoopV1 (H : Hmac) (gen : String) (ifuel : Nat) :
    Nat → List (Option α) → PFNState → JsResult (List (Option α))
  | 0, arr, st => .ok arr st
  | m + 1, arr, st =>
    match nextIntV1 H gen 0 ((m : Int) + 1) st ifuel with
    | .ok i st1 =>
      let iN := i.toNat
      let t := jsAget arr m
      shuffleLoopV1 H gen ifuel m (jsAset (jsAset arr m (jsAget arr iN)) iN t) st1
    | .exn e s => .exn e s
    | .spin => .spin

/-- `shuffle(arr)` (V1). -/
def shuffleV1 (H : Hmac) (gen : String) (arr : List (Option α))
    (st : PFNState) (ifuel : Nat) : JsResult (List (Option α)) :=
  shuffleLoopV1 H gen ifuel arr.length arr st

/-- `crash(houseEdge, max)` (V1): `X = (100 - houseEdge) / (1 - X)` then
`Math.min(Math.max(1, Math.floor(X) / 100), max)` — `houseEdge` is always
treated as a percentage, with no fraction auto-detection and no guard on
`X < 1`. -/
def crashV1 (H : Hmac) (gen : String) (houseEdge mx : ℚ) (st : PFNState) :
    ℚ × PFNState :=
  let p := randomV1 H gen st
  let x := (100 - houseEdge) / (1 - p.1)
  (min (max 1 ((⌊x⌋ : ℚ) / 100)) mx, p.2)

/-! ### Specification-side reference definition (for the crash refinement)
and concrete fixtures used by witnesses and counterexamples. -/

/-- The crash multiplier exactly as the specification words it:
`ε = houseEdge/100` when `houseEdge ≥ 1`, else `ε = houseEdge`;
`raw = (1 - ε) / (1 - r)` for the uniform value `r`; floor at hundredths;
clamp to `[1, maxCap]`. -/
def crashSpecFormula (houseEdge mx r : ℚ) : ℚ :=
  let eps := if houseEdge ≥ 1 then houseEdge / 100 else houseEdge
  let raw := (1 - eps) / (1 - r)
  min (max 1 ((⌊raw * 100⌋ : ℚ) / 100)) mx

/-- The all-zero digest. -/
def zeroDigest : Digest := fun _ => 0

/-- An oracle returning the all-zero digest for every message. -/
def hmacZero : Hmac := fun _ _ => zeroDigest

/-- A digest whose first four bytes are `0xFF` (so `hi32 = 2^32 - 1`). -/
def ffDigest : Digest := fun j => if (j : Nat) < 4 then 255 else 0

/-- An oracle that rejects the first draw of a `randomInt(0, 2)` made at
nonce 1 (digest `ffDigest` there) and accepts afterwards. -/
def hmacRejectOnce : Hmac := fun _ msg =>
  if msg = "c-1" then ffDigest else zeroDigest

/-- A digest whose first byte is `0x80`, so the V1 256-bit value is
`2^255` and V1 `random()` is exactly `1/2`. -/
def halfDigest : Digest := fun j => if (j : Nat) = 0 then 128 else 0

/-- An oracle returning `halfDigest` for every message. -/
def hmacHalf : Hmac := fun _ _ => halfDigest

/-- A concrete state: client seed `"c"`, server seed `"s"`, nonce 0, nonce
mode. -/
def stC : PFNState :=
  { clientSeed := some "c", serverSeed := "s", nonce := 0, index := none }

/-- `stC` with nonce 5. -/
def stC5 : PFNState := { stC with nonce := 5 }

/-! ### Helper lemmas -/

theorem counter_advance (st : PFNState) : counter (advance st) = counter st + 1 := by
  cases h : st.index <;> simp [advance, nextIndex, counter, h]

theorem advance_nonce (st : PFNState) (h : st.index = none) :
    advance st = { st with nonce := st.nonce + 1 } := by
  simp [advance, nextIndex, h]

theorem currentHmacBuf_snd_nonce (H : Hmac) (gen : String) (st : PFNState) :
    (currentHmacBuf H gen st).2.nonce = st.nonce := by
  simp only [currentHmacBuf]
  split <;> rfl

theorem currentHmacBuf_snd_index (H : Hmac) (gen : String) (st : PFNState) :
    (currentHmacBuf H gen st).2.index = st.index := by
  simp only [currentHmacBuf]
  split <;> rfl

theorem counter_currentHmacBuf (H : Hmac) (gen : String) (st : PFNState) :
    counter (currentHmacBuf H gen st).2 = counter st := by
  simp only [currentHmacBuf]
  split <;> rfl

theorem hi32_lt (d : Digest) : hi32 d < 2 ^ 32 := by
  have h0 := (d 0).isLt
  have h1 := (d 1).isLt
  have h2 := (d 2).isLt
  have h3 := (d 3).isLt
  simp only [hi32]
  omega

theorem lo32_lt (d : Digest) : lo32 d < 2 ^ 32 := by
  have h4 := (d 4).isLt
  have h5 := (d 5).isLt
  have h6 := (d 6).isLt
  have h7 := (d 7).isLt
  simp only [lo32]
  omega

theorem mantissa52_lt (d : Digest) : mantissa52 d < 2 ^ 52 := by
  have hh := hi32_lt d
  have hl : lo32 d / 2 ^ 12 < 2 ^ 20 :=
    (Nat.div_lt_iff_lt_mul (by norm_num)).mpr (by have := lo32_lt d; omega)
  simp only [mantissa52]
  omega

theorem randomV2_snd (H : Hmac) (gen : String) (st : PFNState) :
    (randomV2 H gen st).2 = (currentHmacBuf H gen st).2 := rfl

/-- The `r >= 1` guard of V2 `random()` never fires: the value is always
the 52-bit mantissa over `2^52`. -/
theorem randomV2_fst (H : Hmac) (gen : String) (st : PFNState) :
    (randomV2 H gen st).1 =
      (mantissa52 (currentHmacBuf H gen st).1 : ℚ) / 2 ^ 52 := by
  simp only [randomV2]
  rw [if_neg]
  rw [not_le, div_lt_one (by norm_num)]
  exact_mod_cast mantissa52_lt (currentHmacBuf H gen st).1

theorem randomV2_fst_nonneg (H : Hmac) (gen : String) (st : PFNState) :
    0 ≤ (randomV2 H gen st).1 := by
  rw [randomV2_fst]
  positivity

theorem randomV2_fst_lt_one (H : Hmac) (gen : String) (st : PFNState) :
    (randomV2 H gen st).1 < 1 := by
  rw [randomV2_fst, div_lt_one (by norm_num)]
  exact_mod_cast mantissa52_lt (currentHmacBuf H gen st).1

theorem randomIntLoopV2_ok_bounds (H : Hmac) (gen : String)
    (mn range maxRange : Int) (hr : 0 < range) :
    ∀ (fuel : Nat) (st : PFNState) (v : Int) (st2 : PFNState),
      randomIntLoopV2 H gen mn range maxRange st fuel = .ok v st2 →
      mn ≤ v ∧ v < mn + range := by
  intro fuel
  induction fuel with
  | zero => intro st v st2 h; exact absurd h (by simp [randomIntLoopV2])
  | succ n ih =>
    intro st v st2 h
    simp only [randomIntLoopV2] at h
    split at h
    · exact ih _ _ _ h
    · have hok : Int.tmod ⌊(randomV2 H gen st).1 * 2 ^ 32⌋ range + mn = v :=
        congrArg (fun r => match r with | .ok w _ => w | _ => v) h
      have hi : (0 : Int) ≤ ⌊(randomV2 H gen st).1 * 2 ^ 32⌋ :=
        Int.floor_nonneg.mpr (mul_nonneg (randomV2_fst_nonneg H gen st) (by norm_num))
      rw [Int.tmod_eq_emod hi (le_of_lt hr)] at hok
      have hnn := Int.emod_nonneg ⌊(randomV2 H gen st).1 * 2 ^ 32⌋ (ne_of_gt hr)
      have hlt := Int.emod_lt_of_pos ⌊(randomV2 H gen st).1 * 2 ^ 32⌋ hr
      omega

theorem randomIntLoopV2_ok_counter (H : Hmac) (gen : String)
    (mn range maxRange : Int) :
    ∀ (fuel : Nat) (st : PFNState) (v : Int) (st2 : PFNState),
      randomIntLoopV2 H gen mn range maxRange st fuel = .ok v st2 →
      ∃ k : Nat, counter st2 = counter st + k := by
  intro fuel
  induction fuel with
  | zero => intro st v st2 h; exact absurd h (by simp [randomIntLoopV2])
  | succ n ih =>
    intro st v st2 h
    simp only [randomIntLoopV2] at h
    split at h
    · obtain ⟨k, hk⟩ := ih _ _ _ h
      refine ⟨k + 1, ?_⟩
      rw [hk, counter_advance, randomV2_snd, counter_currentHmacBuf]
      push_cast
      ring
    · have hst : (randomV2 H gen st).2 = st2 :=
        congrArg (fun r => match r with | .ok _ s => s | _ => st2) h
      refine ⟨0, ?_⟩
      rw [← hst, randomV2_snd, counter_currentHmacBuf]
      simp

theorem randomIntLoopV2_one_ok (H : Hmac) (gen : String)
    (mn range maxRange : Int) (st : PFNState) (v : Int) (st2 : PFNState)
    (h : randomIntLoopV2 H gen mn range maxRange st 1 = .ok v st2) :
    st2 = (currentHmacBuf H gen st).2 := by
  simp only [randomIntLoopV2] at h
  split at h
  · exact absurd h (by simp [randomIntLoopV2])
  · exact (congrArg (fun r => match r with | .ok _ s => s | _ => st2) h).symm

theorem randomIntV2_ok_not_lt (H : Hmac) (gen : String) (mn mx : Int)
    (st : PFNState) (fuel : Nat) (v : Int) (st2 : PFNState)
    (h : randomIntV2 H gen mn mx st fuel = .ok v st2) : ¬ mx < mn := by
  intro hlt
  simp [randomIntV2, hlt] at h

theorem randomIntV2_ok_bounds (H : Hmac) (gen : String) (mn mx : Int)
    (st : PFNState) (fuel : Nat) (v : Int) (st2 : PFNState)
    (h : randomIntV2 H gen mn mx st fuel = .ok v st2) :
    mn ≤ v ∧ v ≤ mx := by
  have hle := randomIntV2_ok_not_lt H gen mn mx st fuel v st2 h
  simp only [randomIntV2, if_neg hle] at h
  have := randomIntLoopV2_ok_bounds H gen mn (mx - mn + 1) _ (by omega)
    fuel st v st2 h
  omega

theorem randomIntV2_ok_counter (H : Hmac) (gen : String) (mn mx : Int)
    (st : PFNState) (fuel : Nat) (v : Int) (st2 : PFNState)
    (h : randomIntV2 H gen mn mx st fuel = .ok v st2) :
    ∃ k : Nat, counter st2 = counter st + k := by
  have hle := randomIntV2_ok_not_lt H gen mn mx st fuel v st2 h
  simp only [randomIntV2, if_neg hle] at h
  exact randomIntLoopV2_ok_counter H gen mn _ _ fuel st v st2 h

theorem nextIntV2_ok_counter (H : Hmac) (gen : String) (mn mx : Int)
    (st : PFNState) (fuel : Nat) (v : Int) (st2 : PFNState)
    (h : nextIntV2 H gen mn mx st fuel = .ok v st2) :
    ∃ k : Nat, counter st2 = counter st + 1 + k := by
  obtain ⟨k, hk⟩ := randomIntV2_ok_counter H gen mn mx (advance st) fuel v st2 h
  exact ⟨k, by rw [hk, counter_advance]⟩

theorem nextIntV2_ok_counter_le (H : Hmac) (gen : String) (mn mx : Int)
    (st : PFNState) (fuel : Nat) (v : Int) (st2 : PFNState)
    (h : nextIntV2 H gen mn mx st fuel = .ok v st2) :
    counter st ≤ counter st2 := by
  obtain ⟨k, hk⟩ := nextIntV2_ok_counter H gen mn mx st fuel v st2 h
  omega

theorem nextIntV2_ok_bounds (H : Hmac) (gen : String) (mn mx : Int)
    (st : PFNState) (fuel : Nat) (v : Int) (st2 : PFNState)
    (h : nextIntV2 H gen mn mx st fuel = .ok v st2) :
    mn ≤ v ∧ v ≤ mx :=
  randomIntV2_ok_bounds H gen mn mx (advance st) fuel v st2 h

/-- With fuel 1 an `ok` result means the very first draw was accepted: no
rejection happened, and the counter moved by the single explicit
`nextIndex()` only. -/
theorem nextIntV2_one_ok_counter (H : Hmac) (gen : String) (mn mx : Int)
    (st : PFNState) (v : Int) (st2 : PFNState)
    (h : nextIntV2 H gen mn mx st 1 = .ok v st2) :
    counter st2 = counter st + 1 := by
  have hle := randomIntV2_ok_not_lt H gen mn mx (advance st) 1 v st2 h
  simp only [nextIntV2, randomIntV2, if_neg hle] at h
  rw [randomIntLoopV2_one_ok H gen mn _ _ (advance st) v st2 h,
    counter_currentHmacBuf, counter_advance]

/-- Purity of the digest engine: a second `_currentHmacBuf` call on the
state left by a first one returns the identical digest and state, whatever
fresh hex string the second lazy generation would produce (the first call
installed a non-empty client seed, so the second never regenerates). -/
theorem currentHmacBuf_stable (H : Hmac) (gen gen2 : String) (st : PFNState)
    (h : gen ≠ "") :
    currentHmacBuf H gen2 (currentHmacBuf H gen st).2 =
      currentHmacBuf H gen st := by
  by_cases hf : clientSeedFalsy st
  · simp only [currentHmacBuf, hf, if_true]
    have : clientSeedFalsy { st with clientSeed := some gen } = false := by
      simp [clientSeedFalsy, h]
    simp [this]
  · simp only [currentHmacBuf, hf]
    simp [Bool.not_eq_true] at hf
    simp [hf]

theorem randomIntLoopV2_ne_exn (H : Hmac) (gen : String)
    (mn range maxRange : Int) :
    ∀ (fuel : Nat) (st : PFNState) (e : String) (s : PFNState),
      randomIntLoopV2 H gen mn range maxRange st fuel ≠ .exn e s := by
  intro fuel
  induction fuel with
  | zero => intro st e s; simp [randomIntLoopV2]
  | succ n ih =>
    intro st e s
    simp only [randomIntLoopV2]
    split
    · exact ih _ _ _
    · simp

theorem randomIntV2_exn_state (H : Hmac) (gen : String) (mn mx : Int)
    (st : PFNState) (fuel : Nat) (e : String) (s : PFNState)
    (h : randomIntV2 H gen mn mx st fuel = .exn e s) : s = st := by
  simp only [randomIntV2] at h
  split at h
  · cases h; rfl
  · exact absurd h (randomIntLoopV2_ne_exn H gen mn _ _ fuel st e s)

theorem nextIntV2_exn_counter (H : Hmac) (gen : String) (mn mx : Int)
    (st : PFNState) (fuel : Nat) (e : String) (s : PFNState)
    (h : nextIntV2 H gen mn mx st fuel = .exn e s) :
    counter s = counter st + 1 := by
  rw [randomIntV2_exn_state H gen mn mx (advance st) fuel e s h, counter_advance]

theorem rirUniqueLoopV2_ok_counter (H : Hmac) (gen : String)
    (mn mx size : Int) (ifuel : Nat) :
    ∀ (fuel : Nat) (acc : List Int) (st : PFNState) (l : List Int)
      (st2 : PFNState),
      rirUniqueLoopV2 H gen mn mx size ifuel acc st fuel = .ok l st2 →
      counter st ≤ counter st2 := by
  intro fuel
  induction fuel with
  | zero =>
    intro acc st l st2 h
    simp only [rirUniqueLoopV2] at h
    split at h
    · cases h
    · cases h; exact le_refl _
  | succ n ih =>
    intro acc st l st2 h
    simp only [rirUniqueLoopV2] at h
    split at h
    · cases heq : nextIntV2 H gen mn mx st ifuel with
      | ok v st1 =>
        rw [heq] at h
        exact le_trans (nextIntV2_ok_counter_le H gen mn mx st ifuel v st1 heq)
          (ih _ _ _ _ h)
      | exn e s => rw [heq] at h; cases h
      | spin => rw [heq] at h; cases h
    · cases h; exact le_refl _

theorem rirListLoopV2_ok_counter (H : Hmac) (gen : String) (mn mx : Int)
    (ifuel : Nat) :
    ∀ (k : Nat) (acc : List Int) (st : PFNState) (l : List Int)
      (st2 : PFNState),
      rirListLoopV2 H gen mn mx ifuel k acc st = .ok l st2 →
      counter st ≤ counter st2 := by
  intro k
  induction k with
  | zero => intro acc st l st2 h; cases h; exact le_refl _
  | succ n ih =>
    intro acc st l st2 h
    simp only [rirListLoopV2] at h
    cases heq : nextIntV2 H gen mn mx st ifuel with
    | ok v st1 =>
      rw [heq] at h
      exact le_trans (nextIntV2_ok_counter_le H gen mn mx st ifuel v st1 heq)
        (ih _ _ _ _ h)
    | exn e s => rw [heq] at h; cases h
    | spin => rw [heq] at h; cases h

theorem shuffleLoopV2_ok_counter {α : Type} (H : Hmac) (gen : String)
    (ifuel : Nat) :
    ∀ (m : Nat) (arr : List (Option α)) (st : PFNState)
      (l : List (Option α)) (st2 : PFNState),
      shuffleLoopV2 H gen ifuel m arr st = .ok l st2 →
      counter st ≤ counter st2 := by
  intro m
  induction m with
  | zero => intro arr st l st2 h; cases h; exact le_refl _
  | succ n ih =>
    intro arr st l st2 h
    simp only [shuffleLoopV2] at h
    cases heq : nextIntV2 H gen 0 (n : Int) st ifuel with
    | ok v st1 =>
      rw [heq] at h
      exact le_trans (nextIntV2_ok_counter_le H gen 0 (n : Int) st ifuel v st1 heq)
        (ih _ _ _ _ h)
    | exn e s => rw [heq] at h; cases h
    | spin => rw [heq] at h; cases h

theorem pumpSelectLoop_ok_counter (H : Hmac) (gen : String) (ifuel : Nat) :
    ∀ (k : Nat) (positions : List Int) (remaining : Nat) (fb : Int)
      (st : PFNState) (v : Int) (st2 : PFNState),
      pumpSelectLoop H gen ifuel k positions remaining fb st = .ok v st2 →
      counter st ≤ counter st2 := by
  intro k
  induction k with
  | zero => intro positions remaining fb st v st2 h; cases h; exact le_refl _
  | succ n ih =>
    intro positions remaining fb st v st2 h
    simp only [pumpSelectLoop] at h
    cases heq : nextIntV2 H gen 0 ((remaining : Int) - 1) st ifuel with
    | ok j st1 =>
      rw [heq] at h
      exact le_trans
        (nextIntV2_ok_counter_le H gen 0 ((remaining : Int) - 1) st ifuel j st1 heq)
        (ih _ _ _ _ _ _ h)
    | exn e s => rw [heq] at h; cases h
    | spin => rw [heq] at h; cases h

theorem multiset_coe_add_singleton {α : Type} (s : Multiset α) (x : α) :
    s + {x} = x ::ₘ s := by
  rw [add_comm, Multiset.singleton_add]

/-- Replacing the element at an in-range position changes the multiset of a
list by removing the old element and adding the new one. -/
theorem multiset_set_add {α : Type} :
    ∀ (l : List α) (i : Nat) (v : α) (h : i < l.length),
      ((l.set i v : List α) : Multiset α) + {l.get ⟨i, h⟩} =
        (l : Multiset α) + {v} := by
  intro l
  induction l with
  | nil => intro i v h; exact absurd h (by simp)
  | cons a tl ih =>
    intro i v h
    cases i with
    | zero =>
      simp only [List.set, List.get, ← Multiset.cons_coe,
        multiset_coe_add_singleton]
      exact Multiset.cons_swap a v ↑tl
    | succ j =>
      have hj : j < tl.length := by simpa using h
      simp only [List.set, List.get, ← Multiset.cons_coe, Multiset.cons_add]
      rw [ih j v hj]

/-- Swapping two in-range positions leaves the multiset of a list
unchanged. -/
theorem multiset_swap {α : Type} (l : List α) (i j : Nat) (hi : i < l.length)
    (hj : j < l.length) :
    (((l.set j (l.get ⟨i, hi⟩)).set i (l.get ⟨j, hj⟩) : List α) : Multiset α)
      = (l : Multiset α) := by
  have hi2 : i < (l.set j (l.get ⟨i, hi⟩)).length := by simpa using hi
  have hgi : (l.set j (l.get ⟨i, hi⟩)).get ⟨i, hi2⟩ = l.get ⟨i, hi⟩ := by
    simp only [List.get_eq_getElem, List.getElem_set]
    split <;> rfl
  have h1 := multiset_set_add (l.set j (l.get ⟨i, hi⟩)) i (l.get ⟨j, hj⟩) hi2
  have h2 := multiset_set_add l j (l.get ⟨i, hi⟩) hj
  rw [hgi, h2] at h1
  exact add_right_cancel h1

theorem jsAget_of_lt {α : Type} (l : List (Option α)) (i : Nat)
    (h : i < l.length) : jsAget l i = l.get ⟨i, h⟩ := by
  simp [jsAget, List.get?_eq_getElem?, List.getElem?_eq_getElem h]

theorem jsAset_of_lt {α : Type} (l : List (Option α)) (i : Nat)
    (v : Option α) (h : i < l.length) : jsAset l i v = l.set i v := by
  simp [jsAset, h]

/-- One V2 shuffle swap (both indices in range) preserves the multiset and
the length. -/
theorem shuffle_swap_multiset {α : Type} (arr : List (Option α)) (m iN : Nat)
    (hm : m < arr.length) (hi : iN < arr.length) :
    ((jsAset (jsAset arr m (jsAget arr iN)) iN (jsAget arr m) :
        List (Option α)) : Multiset (Option α)) = (arr : Multiset (Option α))
      ∧ (jsAset (jsAset arr m (jsAget arr iN)) iN (jsAget arr m)).length
          = arr.length := by
  rw [jsAget_of_lt arr iN hi, jsAget_of_lt arr m hm, jsAset_of_lt arr m _ hm,
    jsAset_of_lt _ iN _ (by simpa using hi)]
  exact ⟨multiset_swap arr iN m hi hm, by simp⟩

/-- The V2 shuffle loop is a permutation: when it finishes, the multiset of
elements (and the length) of the array is unchanged. -/
theorem shuffleLoopV2_ok_perm {α : Type} (H : Hmac) (gen : String)
    (ifuel : Nat) :
    ∀ (m : Nat) (arr : List (Option α)) (st : PFNState)
      (l : List (Option α)) (st2 : PFNState),
      m ≤ arr.length →
      shuffleLoopV2 H gen ifuel m arr st = .ok l st2 →
      ((l : List (Option α)) : Multiset (Option α)) = (arr : Multiset (Option α))
        ∧ l.length = arr.length := by
  intro m
  induction m with
  | zero =>
    intro arr st l st2 _ h
    cases h
    exact ⟨rfl, rfl⟩
  | succ n ih =>
    intro arr st l st2 hlen h
    simp only [shuffleLoopV2] at h
    cases heq : nextIntV2 H gen 0 (n : Int) st ifuel with
    | ok i st1 =>
      rw [heq] at h
      obtain ⟨hi0, hin⟩ := nextIntV2_ok_bounds H gen 0 (n : Int) st ifuel i st1 heq
      have hiN : i.toNat < arr.length := by omega
      have hm : n < arr.length := by omega
      obtain ⟨hperm, hlen2⟩ := shuffle_swap_multiset arr n i.toNat hm hiN
      obtain ⟨ih1, ih2⟩ := ih _ _ _ _ (by omega) h
      exact ⟨ih1.trans hperm, by rw [ih2, hlen2]⟩
    | exn e s => rw [heq] at h; cases h
    | spin => rw [heq] at h; cases h

/-- Invariant of the V2 unique-collection loop: starting from a duplicate-
free accumulator of in-range values whose length is at most `size`
(`size ≥ 0`), an `ok` result is duplicate-free, has length exactly `size`,
and stays in range. -/
theorem rirUniqueLoopV2_ok_spec (H : Hmac) (gen : String) (mn mx size : Int)
    (ifuel : Nat) :
    ∀ (fuel : Nat) (acc : List Int) (st : PFNState) (l : List Int)
      (st2 : PFNState),
      acc.Nodup → (acc.length : Int) ≤ size →
      (∀ x ∈ acc, mn ≤ x ∧ x ≤ mx) →
      rirUniqueLoopV2 H gen mn mx size ifuel acc st fuel = .ok l st2 →
      l.Nodup ∧ (l.length : Int) = size ∧ ∀ x ∈ l, mn ≤ x ∧ x ≤ mx := by
  intro fuel
  induction fuel with
  | zero =>
    intro acc st l st2 hnd hle hmem h
    simp only [rirUniqueLoopV2] at h
    split at h
    · cases h
    · cases h
      exact ⟨hnd, by omega, hmem⟩
  | succ n ih =>
    intro acc st l st2 hnd hle hmem h
    simp only [rirUniqueLoopV2] at h
    split at h
    · rename_i hcond
      cases heq : nextIntV2 H gen mn mx st ifuel with
      | ok v st1 =>
        rw [heq] at h
        dsimp only at h
        obtain ⟨hv1, hv2⟩ := nextIntV2_ok_bounds H gen mn mx st ifuel v st1 heq
        by_cases hc : acc.contains v
        · rw [if_pos hc] at h
          exact ih _ _ _ _ hnd hle hmem h
        · rw [if_neg hc] at h
          have hnotmem : v ∉ acc := by
            simpa using hc
          refine ih _ _ _ _ ?_ ?_ ?_ h
          · simpa [List.nodup_append] using ⟨hnd, hnotmem⟩
          · simp only [List.length_append, List.length_singleton]
            omega
          · intro x hx
            rcases List.mem_append.mp hx with hx1 | hx2
            · exact hmem x hx1
            · rcases List.mem_singleton.mp hx2 with rfl
              exact ⟨hv1, hv2⟩
      | exn e s => rw [heq] at h; cases h
      | spin => rw [heq] at h; cases h
    · rename_i hcond
      cases h
      exact ⟨hnd, by omega, hmem⟩

theorem randomIntLoopV2_spin_of_maxRange_zero (H : Hmac) (gen : String)
    (mn range : Int) :
    ∀ (fuel : Nat) (st : PFNState),
      randomIntLoopV2 H gen mn range 0 st fuel = .spin := by
  intro fuel
  induction fuel with
  | zero => intro st; rfl
  | succ n ih =>
    intro st
    simp only [randomIntLoopV2]
    rw [if_pos]
    · exact ih _
    · exact Int.floor_nonneg.mpr
        (mul_nonneg (randomV2_fst_nonneg H gen st) (by norm_num))

/-- The integer drawn by `Math.floor(this.random() * 2 ** 32)` in V2 is
exactly the big-endian 32-bit read of the first four digest bytes: the
`2^-52` scaling and the `2^32` rescaling cancel to a right shift by 20
bits, which drops exactly the `lo32` contribution of the mantissa. -/
theorem floor_randomV2_mul (H : Hmac) (gen : String) (st : PFNState) :
    ⌊(randomV2 H gen st).1 * 2 ^ 32⌋ =
      ((hi32 (currentHmacBuf H gen st).1 : Nat) : Int) := by
  rw [randomV2_fst]
  set d := (currentHmacBuf H gen st).1 with hd
  have h1 : (mantissa52 d : ℚ) / 2 ^ 52 * 2 ^ 32 =
      ((mantissa52 d : Int) : ℚ) / ((2 ^ 20 : Nat) : ℚ) := by
    push_cast
    rw [div_mul_eq_mul_div, div_eq_div_iff (by positivity) (by positivity)]
    ring
  rw [h1, Rat.floor_intCast_div_natCast]
  have h2 : mantissa52 d / 2 ^ 20 = hi32 d := by
    have hs : lo32 d / 2 ^ 12 < 2 ^ 20 :=
      (Nat.div_lt_iff_lt_mul (by norm_num)).mpr (by have := lo32_lt d; omega)
    rw [mantissa52, mul_comm, Nat.mul_add_div (by norm_num),
      Nat.div_eq_of_lt hs, add_zero]
  omega

theorem randomV1_snd (H : Hmac) (gen : String) (st : PFNState) :
    (randomV1 H gen st).2 = (currentHmacBufV1 H gen st).2 := rfl

/-- The integer drawn by `Math.floor(this.random() * 2 ** 32)` in V1 is
the 256-bit digest value shifted right by 224 bits. -/
theorem floor_randomV1_mul (H : Hmac) (gen : String) (st : PFNState) :
    ⌊(randomV1 H gen st).1 * 2 ^ 32⌋ =
      ((digestVal (currentHmacBufV1 H gen st).1 / 2 ^ 224 : Nat) : Int) := by
  show ⌊(digestVal (currentHmacBufV1 H gen st).1 : ℚ) / 2 ^ 256 * 2 ^ 32⌋ = _
  set n := digestVal (currentHmacBufV1 H gen st).1 with hn
  have h1 : (n : ℚ) / 2 ^ 256 * 2 ^ 32 =
      ((n : Int) : ℚ) / ((2 ^ 224 : Nat) : ℚ) := by
    push_cast
    rw [div_mul_eq_mul_div, div_eq_div_iff (by positivity) (by positivity)]
    ring
  rw [h1, Rat.floor_intCast_div_natCast]
  omega

/-- Integer twin of `randomIntLoopV2` used for concrete kernel evaluation
(rational arithmetic does not reduce in the kernel); it is pointwise equal
to `randomIntLoopV2` by `floor_randomV2_mul`. -/
def intLoopV2 (H : Hmac) (gen : String) (mn range maxRange : Int) :
    PFNState → Nat → JsResult Int
  | _, 0 => .spin
  | st, fuel + 1 =>
    let p := currentHmacBuf H gen st
    let i : Int := ((hi32 p.1 : Nat) : Int)
    if i ≥ maxRange then intLoopV2 H gen mn range maxRange (advance p.2) fuel
    else .ok (Int.tmod i range + mn) p.2

theorem randomIntLoopV2_eq_intLoopV2 (H : Hmac) (gen : String)
    (mn range maxRange : Int) (st : PFNState) (fuel : Nat) :
    randomIntLoopV2 H gen mn range maxRange st fuel =
      intLoopV2 H gen mn range maxRange st fuel := by
  induction fuel generalizing st with
  | zero => rfl
  | succ n ih =>
    simp only [randomIntLoopV2, intLoopV2, floor_randomV2_mul, randomV2_snd]
    split <;> simp [ih]

/-- Integer twin of `randomIntLoopV1`. -/
def intLoopV1 (H : Hmac) (gen : String) (mn range maxRange : Int) :
    PFNState → Nat → JsResult Int
  | _, 0 => .spin
  | st, fuel + 1 =>
    let p := currentHmacBufV1 H gen st
    let i : Int := ((digestVal p.1 / 2 ^ 224 : Nat) : Int)
    if i ≥ maxRange then
      intLoopV1 H gen mn range maxRange (advanceV1 p.2) fuel
    else .ok (Int.tmod i range + mn) p.2

theorem randomIntLoopV1_eq_intLoopV1 (H : Hmac) (gen : String)
    (mn range maxRange : Int) (st : PFNState) (fuel : Nat) :
    randomIntLoopV1 H gen mn range maxRange st fuel =
      intLoopV1 H gen mn range maxRange st fuel := by
  induction fuel generalizing st with
  | zero => rfl
  | succ n ih =>
    simp only [randomIntLoopV1, intLoopV1, floor_randomV1_mul, randomV1_snd]
    split <;> simp [ih]

/-! ### The claims -/

/-- C1 (amended): `next` and `nextFloat` advance the active counter by
exactly 1 per call (also when `nextFloat` throws); `nextInt` advances by
exactly 1 when its first draw is accepted (fuel 1 forces acceptance
without redraw), and in general by 1 plus one further unit per internal
rejected redraw. -/
theorem c1_next_wrappers_counter (H : Hmac) (gen : String) (st : PFNState)
    (mn mx : Int) (a b : ℚ) (p : Nat) :
    counter (nextV2 H gen st).2 = counter st + 1 ∧
    (∀ st2, (nextFloatV2 H gen a b p st).stateOut = some st2 →
      counter st2 = counter st + 1) ∧
    (∀ v st2, nextIntV2 H gen mn mx st 1 = .ok v st2 →
      counter st2 = counter st + 1) ∧
    (∀ fuel v st2, nextIntV2 H gen mn mx st fuel = .ok v st2 →
      ∃ k : Nat, counter st2 = counter st + 1 + k) := by
  refine ⟨?_, ?_, ?_, ?_⟩
  · rw [nextV2, randomV2_snd, counter_currentHmacBuf, counter_advance]
  · intro st2 h
    simp only [nextFloatV2, randomFloatV2] at h
    split at h
    · simp only [JsResult.stateOut, Option.some.injEq] at h
      rw [← h, counter_advance]
    · simp only [JsResult.stateOut, Option.some.injEq] at h
      rw [← h, randomV2_snd, counter_currentHmacBuf, counter_advance]
  · exact nextIntV2_one_ok_counter H gen mn mx st
  · intro fuel v st2 h
    exact nextIntV2_ok_counter H gen mn mx st fuel v st2 h

/-- C1 counterexample: with an oracle whose digest at counter value 1 has
its first four bytes `0xFF`, `nextInt(0, 2)` rejects its first draw
(`hi32 = 2^32 - 1 ≥ maxRange = 3 * ⌊2^32 / 3⌋ = 2^32 - 1`), advances and
redraws, so the single call moves the counter from 0 to 2 — not by
exactly 1 as the claim states. -/
theorem c1_counterexample :
    nextIntV2 hmacRejectOnce "g" 0 2 stC 2 = .ok 0 { stC with nonce := 2 } ∧
    counter { stC with nonce := 2 } ≠ counter stC + 1 := by
  constructor
  · simp only [nextIntV2, randomIntV2, randomIntLoopV2_eq_intLoopV2]
    decide
  · decide

/-- Witness for C1 at a concrete input: under the all-zero oracle `next`
advances 0 → 1 and a `nextInt(0, 2)` accepting its first draw also
advances 0 → 1. -/
theorem c1_witness :
    counter (nextV2 hmacZero "g" stC).2 = counter stC + 1 ∧
    counter { stC with nonce := 1 } = counter stC + 1 := by
  constructor
  · exact (c1_next_wrappers_counter hmacZero "g" stC 0 2 0 1 2).1
  · exact (c1_next_wrappers_counter hmacZero "g" stC 0 2 0 1 2).2.2.1 0
      { stC with nonce := 1 }
      (by simp only [nextIntV2, randomIntV2, randomIntLoopV2_eq_intLoopV2]; decide)

/-- Purity of `random()` under repetition: a second call on the state left
by a first one (with any fresh hex string for the lazy generation) returns
the identical value and state. -/
theorem randomV2_stable (H : Hmac) (gen gen2 : String) (st : PFNState)
    (h : gen ≠ "") :
    randomV2 H gen2 (randomV2 H gen st).2 =
      ((randomV2 H gen st).1, (randomV2 H gen st).2) := by
  simp only [randomV2]
  rw [currentHmacBuf_stable H gen gen2 st h]

/-- C5: the digest, and hence every peek value, is a pure function of the
current counter: calling `random`, `randomLong` or `crash` twice without
an intervening advance returns the identical result and leaves the state
(in particular the counter) unchanged, and a non-rejecting `randomInt`
repeated on its own post-state returns the same value and state; the first
call leaves nonce and index untouched.  (`gen ≠ ''` says the lazily
generated 64-hex client seed of the first call is not empty.) -/
theorem c5_peek_purity (H : Hmac) (gen gen2 : String) (st : PFNState)
    (he cap : ℚ) (mn mx : Int) (h : gen ≠ "") :
    randomV2 H gen2 (randomV2 H gen st).2 =
      ((randomV2 H gen st).1, (randomV2 H gen st).2) ∧
    randomLongV2 H gen2 (randomLongV2 H gen st).2 =
      ((randomLongV2 H gen st).1, (randomLongV2 H gen st).2) ∧
    crashV2 H gen2 he cap (crashV2 H gen he cap st).2 =
      ((crashV2 H gen he cap st).1, (crashV2 H gen he cap st).2) ∧
    (∀ v st2, randomIntV2 H gen mn mx st 1 = .ok v st2 →
      randomIntV2 H gen2 mn mx st2 1 = .ok v st2) ∧
    (randomV2 H gen st).2.nonce = st.nonce ∧
    (randomV2 H gen st).2.index = st.index := by
  refine ⟨randomV2_stable H gen gen2 st h, ?_, ?_, ?_, ?_, ?_⟩
  · simp only [randomLongV2]
    rw [currentHmacBuf_stable H gen gen2 st h]
  · simp only [crashV2]
    rw [randomV2_stable H gen gen2 st h]
  · intro v st2 hOk
    have hle := randomIntV2_ok_not_lt H gen mn mx st 1 v st2 hOk
    simp only [randomIntV2, if_neg hle] at hOk ⊢
    simp only [randomIntLoopV2] at hOk ⊢
    split at hOk
    · cases hOk
    · rename_i hcond
      injection hOk with h1 h2
      subst h2
      rw [randomV2_stable H gen gen2 st h]
      rw [if_neg hcond, h1]
  · rw [randomV2_snd, currentHmacBuf_snd_nonce]
  · rw [randomV2_snd, currentHmacBuf_snd_index]

/-- Witness for C5 at a concrete input: repeating an accepted
`randomInt(0, 2)` on its own post-state under the all-zero oracle returns
the same value and state. -/
theorem c5_witness : randomIntV2 hmacZero "x" 0 2 stC 1 = .ok 0 stC :=
  (c5_peek_purity hmacZero "g" "x" stC 1 1000000 0 2 (by decide)).2.2.2.1 0 stC
    (by simp only [randomIntV2, randomIntLoopV2_eq_intLoopV2]; decide)

/-- C2: the claim demands that the rejection loop of `randomInt` cannot
run forever for any `min ≤ max`, including ranges larger than `2^32`.
The code violates this: for `min = 0`, `max = 2^32` (range `2^32 + 1`),
`maxRange = Math.floor(2^32 / range) * range = 0`, so `i >= maxRange`
holds for every draw and the `do … while` loop never exits — for every
oracle, every seed state and every fuel bound the loop is still
spinning. -/
theorem c2_randomInt_spins_forever (H : Hmac) (gen : String) (st : PFNState)
    (fuel : Nat) : randomIntV2 H gen 0 4294967296 st fuel = .spin := by
  have hmr : ((2 : Int) ^ 32).fdiv (4294967296 - 0 + 1) * (4294967296 - 0 + 1)
      = 0 := by decide
  simp only [randomIntV2, if_neg (by norm_num : ¬ (4294967296 : Int) < 0), hmr]
  exact randomIntLoopV2_spin_of_maxRange_zero H gen 0 _ fuel st

/-- C6: whenever V2 `randomInt(min, max)` returns (for `min ≤ max` — in
fact the returned-value hypothesis already forces that), the value lies in
the inclusive range `[min, max]`. -/
theorem c6_randomInt_in_range (H : Hmac) (gen : String) (mn mx : Int)
    (st : PFNState) (fuel : Nat) (v : Int) (st2 : PFNState) (_hmn : mn ≤ mx)
    (h : randomIntV2 H gen mn mx st fuel = .ok v st2) :
    mn ≤ v ∧ v ≤ mx :=
  randomIntV2_ok_bounds H gen mn mx st fuel v st2 h

/-- Witness for C6 at a concrete input: `randomInt(1, 10)` under the
all-zero oracle accepts immediately and returns 1. -/
theorem c6_witness : (1 : Int) ≤ 1 ∧ (1 : Int) ≤ 10 :=
  c6_randomInt_in_range hmacZero "g" 1 10 stC 1 1 stC (by norm_num)
    (by simp only [randomIntV2, randomIntLoopV2_eq_intLoopV2]; decide)

/-- C7 (amended): in V2 every ranged operation called with `max < min`
throws its `max < min` `RangeError` carrying the unmodified input state
(no partial result, counter unchanged).  The V1 ranged operations perform
no such check (see the counterexample). -/
theorem c7_v2_range_errors (H : Hmac) (gen : String) (mn mx size : Int)
    (unique : Bool) (a b : ℚ) (p : Nat) (st : PFNState) (ifuel fuel : Nat)
    (hmn : mx < mn) (hab : b < a) :
    randomIntV2 H gen mn mx st fuel = .exn "randomInt: max < min" st ∧
    randomFloatV2 H gen a b p st = .exn "randomFloat: max < min" st ∧
    randomIntRangeV2 H gen mn mx size unique st ifuel fuel =
      .exn "randomIntRange: max < min" st := by
  refine ⟨?_, ?_, ?_⟩
  · simp [randomIntV2, hmn]
  · simp [randomFloatV2, hab]
  · simp [randomIntRangeV2, hmn]

/-- Witness for C7 at a concrete input. -/
theorem c7_witness :
    randomIntV2 hmacZero "g" 10 5 stC 1 = .exn "randomInt: max < min" stC ∧
    randomFloatV2 hmacZero "g" 10 5 2 stC = .exn "randomFloat: max < min" stC ∧
    randomIntRangeV2 hmacZero "g" 10 5 3 true stC 1 1 =
      .exn "randomIntRange: max < min" stC :=
  c7_v2_range_errors hmacZero "g" 10 5 3 true 10 5 2 stC 1 1 (by norm_num)
    (by norm_num)

/-- C7 counterexample: V1 `randomInt(5, 2)` (max < min) does not report
any error — under the all-zero oracle it happily returns the value 5 (and
`5 ∉ [5, 2]` is not even a range), contradicting the claim that every
ranged operation reports a `RangeError` and never returns a value. -/
theorem c7_counterexample :
    randomIntV1 hmacZero "g" 5 2 stC 1 = .ok 5 stC := by
  simp only [randomIntV1, randomIntLoopV1_eq_intLoopV1]
  decide

/-- C4 (amended): V2's `crash` returns exactly the formula of the claim
(`ε`-normalised house edge, flooring at hundredths, clamping to
`[1, maxCap]`), over a uniform value that is provably in `[0, 1)` (both
`r ≥ 1` guards are dead code); it does not advance the state beyond the
lazy seed install, and for `houseEdge = 100` it returns exactly 1 whenever
`maxCap ≥ 1` (so in particular at the default cap `10^6`).  V1's `crash`
computes a different formula — see the counterexample. -/
theorem c4_crash_formula (H : Hmac) (gen : String) (he cap : ℚ)
    (st : PFNState) :
    (crashV2 H gen he cap st).1 =
      crashSpecFormula he cap (randomV2 H gen st).1 ∧
    0 ≤ (randomV2 H gen st).1 ∧ (randomV2 H gen st).1 < 1 ∧
    (crashV2 H gen he cap st).2 = (currentHmacBuf H gen st).2 ∧
    (1 ≤ cap → (crashV2 H gen 100 cap st).1 = 1) := by
  have hlt := randomV2_fst_lt_one H gen st
  refine ⟨?_, randomV2_fst_nonneg H gen st, hlt, rfl, ?_⟩
  · simp only [crashV2, crashSpecFormula, if_neg (not_le.mpr hlt)]
  · intro hcap
    simp only [crashV2, if_neg (not_le.mpr hlt)]
    norm_num
    exact hcap

/-- Witness for C4 at a concrete input: `crash(100)` at the default cap is
exactly 1. -/
theorem c4_witness : (crashV2 hmacZero "g" 100 1000000 stC).1 = 1 :=
  (c4_crash_formula hmacZero "g" 100 1000000 stC).2.2.2.2 (by norm_num)

attribute [local semireducible] Rat.add Rat.mul Rat.sub Rat.inv

set_option maxRecDepth 8000

/-- C4 counterexample: with a digest whose value is `2^255` the uniform
value is exactly `1/2`; V1's `crash(0.5, 20000)` then returns 1.99
(it computes `(100 - houseEdge) / (1 - r)` floored then divided by 100,
always treating `houseEdge` as a percentage), while the formula the claim
states yields exactly 1 for the same seed state. -/
theorem c4_counterexample :
    (crashV1 hmacHalf "g" (1 / 2) 20000 stC).1 = 199 / 100 ∧
    crashSpecFormula (1 / 2) 20000 ((randomV1 hmacHalf "g" stC).1) = 1 ∧
    ((199 : ℚ) / 100) ≠ 1 :=
  ⟨by decide, by decide, by norm_num⟩

/-- C3 (amended): across the modelled public operations the counter obeys
the advance discipline — pure peek operations (`random`, `randomLong`,
`crash`, `weightedRandom`, `highMultiplier`, `randomFloat`) leave it
unchanged; `randomInt` leaves the state untouched on a range error and
otherwise moves the counter up only, by one `nextIndex()` unit per
rejected redraw; `advance`/`next` move it up by exactly one; `nextInt`
by one plus one per rejection; the collection operations
(`randomIntRange`, `shuffle`) never decrease it.  `pump` is the exception
the counterexample exhibits: it may overwrite the counter with an
arbitrary option value. -/
theorem c3_counter_discipline (H : Hmac) (gen : String) (st : PFNState)
    (mn mx size : Int) (a b he cap : ℚ) (p : Nat)
    (spec : List (String × ℚ)) (unique : Bool) (ifuel fuel : Nat)
    {α : Type} (arr : List (Option α)) :
    counter (randomV2 H gen st).2 = counter st ∧
    counter (randomLongV2 H gen st).2 = counter st ∧
    counter (crashV2 H gen he cap st).2 = counter st ∧
    counter (weightedRandomV2 H gen spec st).2 = counter st ∧
    counter (highMultiplierV2 H gen he cap p st).2 = counter st ∧
    (∀ st2, (randomFloatV2 H gen a b p st).stateOut = some st2 →
      counter st2 = counter st) ∧
    (∀ e st2, randomIntV2 H gen mn mx st fuel = .exn e st2 → st2 = st) ∧
    (∀ v st2, randomIntV2 H gen mn mx st fuel = .ok v st2 →
      ∃ k : Nat, counter st2 = counter st + k) ∧
    counter (advance st) = counter st + 1 ∧
    counter (nextV2 H gen st).2 = counter st + 1 ∧
    (∀ v st2, nextIntV2 H gen mn mx st fuel = .ok v st2 →
      ∃ k : Nat, counter st2 = counter st + 1 + k) ∧
    (∀ l st2,
      randomIntRangeV2 H gen mn mx size unique st ifuel fuel = .ok l st2 →
      counter st ≤ counter st2) ∧
    (∀ l st2, shuffleV2 H gen arr st ifuel = .ok l st2 →
      counter st ≤ counter st2) := by
  refine ⟨?_, ?_, ?_, ?_, ?_, ?_, ?_, ?_, ?_, ?_, ?_, ?_, ?_⟩
  · rw [randomV2_snd, counter_currentHmacBuf]
  · have h2 : (randomLongV2 H gen st).2 = (currentHmacBuf H gen st).2 := rfl
    rw [h2, counter_currentHmacBuf]
  · have h3 : (crashV2 H gen he cap st).2 = (currentHmacBuf H gen st).2 := rfl
    rw [h3, counter_currentHmacBuf]
  · simp only [weightedRandomV2]
    cases spec.filter (fun e => 0 < e.2) with
    | nil => rfl
    | cons hd tl => simp only [randomV2_snd, counter_currentHmacBuf]
  · have h5 : (highMultiplierV2 H gen he cap p st).2 =
        (currentHmacBuf H gen st).2 := rfl
    rw [h5, counter_currentHmacBuf]
  · intro st2 h
    simp only [randomFloatV2] at h
    split at h
    · simp only [JsResult.stateOut, Option.some.injEq] at h
      rw [← h]
    · simp only [JsResult.stateOut, Option.some.injEq] at h
      rw [← h, randomV2_snd, counter_currentHmacBuf]
  · exact randomIntV2_exn_state H gen mn mx st fuel
  · exact randomIntV2_ok_counter H gen mn mx st fuel
  · exact counter_advance st
  · rw [nextV2, randomV2_snd, counter_currentHmacBuf, counter_advance]
  · exact nextIntV2_ok_counter H gen mn mx st fuel
  · intro l st2 h
    simp only [randomIntRangeV2] at h
    split at h
    · cases h
    · split at h
      · exact rirUniqueLoopV2_ok_counter H gen mn mx _ ifuel fuel [] st l st2 h
      · exact rirListLoopV2_ok_counter H gen mn mx ifuel _ [] st l st2 h
  · intro l st2 h
    exact shuffleLoopV2_ok_counter H gen ifuel arr.length arr st l st2 h

/-- C3 counterexample: `pump` overwrites the counter from its options —
called with `opts.nonce = 0` on a state whose nonce is 5 it first sets the
nonce to 0 and then advances three times, ending at 3: the counter has
decreased across a public operation, and was set rather than advanced. -/
theorem c3_counterexample :
    pumpV2 hmacZero "g" { nonce := some 0 } stC5 1 =
      .ok (25, 3, 1) { stC with nonce := 3 } ∧
    counter { stC with nonce := 3 } < counter stC5 :=
  ⟨by decide, by decide⟩

/-- Witness for C3 at a concrete input: a one-element V2 shuffle under the
all-zero oracle finishes with the counter not decreased. -/
theorem c3_witness : counter stC ≤ counter { stC with nonce := 1 } :=
  (c3_counter_discipline hmacZero "g" stC 0 2 1 0 1 1 1000000 2 [] true 1 1
    [some (0 : Nat)]).2.2.2.2.2.2.2.2.2.2.2.2 [some 0]
    { stC with nonce := 1 } (by decide)

/-- C8 (amended): V2's `shuffle` is the claimed Fisher-Yates (each round
draws `i = nextInt(0, m - 1)` and swaps positions `m - 1` and `i`) and its
result is always a permutation of the input — the element multiset is
preserved for every array, including sizes 0 and 1.  V1's `shuffle` draws
`i = nextInt(0, m)` — one position too many — and can read and write past
the end; see the counterexample. -/
theorem c8_shuffle_perm {α : Type} (H : Hmac) (gen : String)
    (arr : List (Option α)) (st : PFNState) (ifuel : Nat)
    (l : List (Option α)) (st2 : PFNState)
    (h : shuffleV2 H gen arr st ifuel = .ok l st2) :
    ((l : List (Option α)) : Multiset (Option α)) =
      ((arr : List (Option α)) : Multiset (Option α)) :=
  (shuffleLoopV2_ok_perm H gen ifuel arr.length arr st l st2 (le_refl _) h).1

/-- C8 counterexample: with a digest that makes the single draw of a
one-element V1 shuffle return `i = 1`, V1's `shuffle([x])` reads the
undefined `arr[1]` and writes at index 1, returning `[undefined, x]` — a
two-element array whose multiset differs from the input's. -/
theorem c8_counterexample :
    shuffleV1 hmacRejectOnce "g" [some (0 : Nat)] stC 1 =
      .ok [none, some 0] { stC with nonce := 1 } ∧
    ¬ (([none, some (0 : Nat)] : List (Option Nat)) : Multiset (Option Nat)) =
      (([some (0 : Nat)] : List (Option Nat)) : Multiset (Option Nat)) :=
  ⟨by decide, by decide⟩

/-- Witness for C8 at a concrete input: the one-element V2 shuffle under
the all-zero oracle returns a permutation of the input. -/
theorem c8_witness :
    (([some (0 : Nat)] : List (Option Nat)) : Multiset (Option Nat)) =
      (([some (0 : Nat)] : List (Option Nat)) : Multiset (Option Nat)) :=
  c8_shuffle_perm hmacZero "g" [some 0] stC 1 [some 0]
    { stC with nonce := 1 } (by decide)

/-- C9 (amended): V2's unique sampling (`randomIntRange` with
`unique = true`) returns, whenever it finishes, exactly
`min (max size 0) (max - min + 1)` pairwise-distinct values, all inside
`[min, max]` (negative sizes give the empty result, oversized requests
are clamped to the domain size).  V1's version clamps `size` to `max`
instead of the domain size; see the counterexample. -/
theorem c9_sample_unique (H : Hmac) (gen : String) (mn mx size : Int)
    (st : PFNState) (ifuel fuel : Nat) (l : List Int) (st2 : PFNState)
    (hmn : mn ≤ mx)
    (h : randomIntRangeV2 H gen mn mx size true st ifuel fuel = .ok l st2) :
    (l.length : Int) = min (max size 0) (mx - mn + 1) ∧ l.Nodup ∧
      ∀ x ∈ l, mn ≤ x ∧ x ≤ mx := by
  simp only [randomIntRangeV2, if_neg (not_lt.mpr hmn), eq_self_iff_true,
    if_true] at h
  set s1 : Int := if size < 0 then 0 else size with hs1
  set s2 : Int := if s1 > mx - mn + 1 then mx - mn + 1 else s1 with hs2
  have e1 : s1 = max size 0 := by rw [hs1]; split <;> omega
  have e2 : s2 = min s1 (mx - mn + 1) := by rw [hs2]; split <;> omega
  have hsz : (0 : Int) ≤ s2 := by omega
  obtain ⟨hnd, hlen, hmem⟩ := rirUniqueLoopV2_ok_spec H gen mn mx s2 ifuel
    fuel [] st l st2 List.nodup_nil (by simpa using hsz) (by simp) h
  exact ⟨by omega, hnd, hmem⟩

/-- C9 counterexample: V1 clamps `size` to `max` rather than to the domain
size `max - min + 1`: `randomIntRange(0, 0, 2, unique)` clamps `size` to 0
and returns the empty unique list, while the claim demands
`min (max 2 0) (0 - 0 + 1) = 1` distinct value. -/
theorem c9_counterexample :
    randomIntRangeV1 hmacZero "g" 0 0 2 true stC 1 1 = .ok ([], []) stC ∧
    ((([] : List Int)).length : Int) ≠ min (max 2 0) (0 - 0 + 1) :=
  ⟨by decide, by decide⟩

/-- Witness for C9 at a concrete input: V2's `randomIntRange(0, 0, 2,
unique)` clamps to the domain size and returns exactly one value. -/
theorem c9_witness :
    ((([0] : List Int)).length : Int) = min (max 2 0) (0 - 0 + 1) ∧
    ([0] : List Int).Nodup ∧
    ∀ x ∈ ([0] : List Int), (0 : Int) ≤ x ∧ x ≤ 0 :=
  c9_sample_unique hmacZero "g" 0 0 2 stC 1 3 [0] { stC with nonce := 1 }
    (by norm_num) (by decide)

/-- C10: constructing V2 with `clientSeed = ''` stores no client seed
(the empty string is falsy), and the first digest-consuming call lazily
installs the freshly generated 64-hex-character seed `gen` and HMACs the
message built from `gen` — the caller's empty string is never the seed
part of the HMAC message. -/
theorem c10_lazy_client_seed (H : Hmac) (gen srv : String) (nonce : Int)
    (index : Option Int) :
    (mkV2 (some "") srv nonce index).clientSeed = none ∧
    (currentHmacBuf H gen (mkV2 (some "") srv nonce index)).2.clientSeed =
      some gen ∧
    (currentHmacBuf H gen (mkV2 (some "") srv nonce index)).1 =
      H srv (hmacMessage
        { clientSeed := some gen, serverSeed := srv, nonce := nonce,
          index := index }) := by
  refine ⟨rfl, ?_, ?_⟩ <;> rfl

end PFN
